import Mathlib

/-!
Verification of the in-memory contact directory (`src/main.py`).

Python strings are modelled as `List Char` (`Str`).  The two Python
exception kinds used by the code, `ValueError` (the spec's
`ValidationError`) and `KeyError` (the spec's `NotFoundError`), are the
constructors of `Err`; fallible operations return `Except Err _`.
`ch.isdigit()` is modelled by `Char.isDigit` and `str.strip()` by
removing leading and trailing whitespace characters.
-/

abbrev Str := List Char

/-- `"".join(ch for ch in str(value) if ch.isdigit())` from
`Phone.__init__` and `Record.find_phone`. -/
def normalizeDigits (s : Str) : Str := s.filter Char.isDigit

/-- `value.strip()` from `Name.__init__`: drop leading and trailing
whitespace. -/
def pyStrip (s : Str) : Str :=
  List.rdropWhile Char.isWhitespace (List.dropWhile Char.isWhitespace s)

/-- The two exception kinds of the code: `ValueError` is the spec's
`ValidationError`, `KeyError` the spec's `NotFoundError`. -/
inductive Err where
  | validationError
  | notFoundError
deriving DecidableEq, Repr

/-- `Name`: wraps the trimmed string (`Name.__init__`). -/
structure Name where
  value : Str
deriving DecidableEq, Repr

/-- `Name.__init__`: strip, fail on empty, store the stripped value. -/
def Name.init (s : Str) : Except Err Name :=
  if pyStrip s = [] then .error .validationError else .ok ⟨pyStrip s⟩

/-- `Phone`: wraps the normalized digit string (`Phone.__init__`). -/
structure Phone where
  value : Str
deriving DecidableEq, Repr

/-- `Phone.__init__`: keep only digit characters, fail unless exactly 10
remain, store the digits-only string. -/
def Phone.init (s : Str) : Except Err Phone :=
  if (normalizeDigits s).length = 10 then .ok ⟨normalizeDigits s⟩
  else .error .validationError

/-- `Record`: a name plus the list of phones in insertion order. -/
structure Record where
  name : Name
  phones : List Phone
deriving DecidableEq, Repr

/-- `Record.__init__`: validate the name, start with no phones. -/
def Record.init (s : Str) : Except Err Record :=
  (Name.init s).map fun n => ⟨n, []⟩

/-- `Record.find_phone`: normalize the query, return the first phone
whose stored value equals it, else `None`. -/
def Record.find_phone (r : Record) (s : Str) : Option Phone :=
  r.phones.find? fun p => decide (p.value = normalizeDigits s)

/-- `Record.add_phone`: construct the Phone (propagating `ValueError`),
append it unless a phone with the same value is already present. -/
def Record.add_phone (r : Record) (s : Str) : Except Err Record :=
  match Phone.init s with
  | .error e => .error e
  | .ok phone =>
    if r.phones.any (fun p => decide (p.value = phone.value)) then
      .ok r
    else
      .ok { r with phones := r.phones ++ [phone] }

/-- `Record.remove_phone`: find the phone (else `KeyError`), then
`self.phones.remove(target)`, which deletes the first list element equal
to the found target. -/
def Record.remove_phone (r : Record) (s : Str) : Except Err Record :=
  match r.find_phone s with
  | none => .error .notFoundError
  | some target => .ok { r with phones := r.phones.erase target }

/-- `target.value = new_phone.value` from `Record.edit_phone`: overwrite
the value of the first phone whose value is `tgt`. -/
def setFirstValue : List Phone → Str → Str → List Phone
  | [], _, _ => []
  | p :: ps, tgt, nv =>
    if p.value = tgt then ⟨nv⟩ :: ps else p :: setFirstValue ps tgt nv

/-- `Record.edit_phone`: find the old phone (else `KeyError`), construct
the new Phone (propagating `ValueError`), then mutate the found phone's
value in place. -/
def Record.edit_phone (r : Record) (old new : Str) : Except Err Record :=
  match r.find_phone old with
  | none => .error .notFoundError
  | some _ =>
    match Phone.init new with
    | .error e => .error e
    | .ok new_phone =>
      .ok { r with
            phones := setFirstValue r.phones (normalizeDigits old) new_phone.value }

/-- `"; ".join(...)`. -/
def joinSep (sep : Str) : List Str → Str
  | [] => []
  | [x] => x
  | x :: xs => x ++ sep ++ joinSep sep xs

/-- `Record.__str__`. -/
def Record.render (r : Record) : Str :=
  let phones_str :=
    if r.phones = [] then "(no phones)".toList
    else joinSep ("; ".toList) (r.phones.map Phone.value)
  "Contact name: ".toList ++ r.name.value ++ ", phones: ".toList ++ phones_str

/-- `AddressBook(UserDict)`: the underlying `dict` is modelled as an
association list in iteration (= key insertion) order. -/
structure AddressBook where
  data : List (Str × Record)
deriving DecidableEq, Repr

/-- `self.data[k] = v` on a Python `dict`: if the key is present its
value is replaced in place (the key keeps its position), otherwise the
pair is appended at the end of the iteration order. -/
def dictInsert (d : List (Str × Record)) (k : Str) (v : Record) :
    List (Str × Record) :=
  if d.any (fun kv => decide (kv.1 = k)) then
    d.map fun kv => if kv.1 = k then (k, v) else kv
  else
    d ++ [(k, v)]

/-- `AddressBook.add_record`: insert/replace keyed by the record's name
value. -/
def AddressBook.add_record (b : AddressBook) (r : Record) : AddressBook :=
  ⟨dictInsert b.data r.name.value r⟩

/-- `AddressBook.find`: `self.data.get(name)` — first entry with the
exact key, else `None`. -/
def AddressBook.find (b : AddressBook) (k : Str) : Option Record :=
  (b.data.find? fun kv => decide (kv.1 = k)).map Prod.snd

/-- `AddressBook.delete`: `del self.data[name]` — `KeyError` when the
key is absent, otherwise the entry is removed. -/
def AddressBook.delete (b : AddressBook) (k : Str) : Except Err AddressBook :=
  if b.data.any (fun kv => decide (kv.1 = k)) then
    .ok ⟨b.data.filter fun kv => decide (kv.1 ≠ k)⟩
  else
    .error .notFoundError

/-- A book-level operation: `add_record` or `delete`.  A `delete` whose
key is absent raises and leaves the book unchanged, which is what the
`applyOp` fallback models. -/
inductive BookOp where
  | add (r : Record)
  | del (k : Str)

def applyOp (b : AddressBook) : BookOp → AddressBook
  | .add r => b.add_record r
  | .del k =>
    match b.delete k with
    | .ok b2 => b2
    | .error _ => b

def applyOps (b : AddressBook) (ops : List BookOp) : AddressBook :=
  ops.foldl applyOp b

/-! ### Supporting lemmas -/

lemma forall_ws_dropWhile_iff (s : Str) :
    (∀ c ∈ List.dropWhile Char.isWhitespace s, c.isWhitespace) ↔
      (∀ c ∈ s, c.isWhitespace) := by
  constructor
  · intro h c hc
    have hsplit : c ∈ List.takeWhile Char.isWhitespace s ++
        List.dropWhile Char.isWhitespace s := by
      rw [List.takeWhile_append_dropWhile]
      exact hc
    rcases List.mem_append.mp hsplit with h1 | h2
    · exact List.mem_takeWhile_imp h1
    · exact h c h2
  · intro h c hc
    exact h c ((List.dropWhile_suffix Char.isWhitespace).subset hc)

lemma pyStrip_eq_nil_iff (s : Str) :
    pyStrip s = [] ↔ ∀ c ∈ s, c.isWhitespace := by
  unfold pyStrip
  rw [List.rdropWhile_eq_nil_iff]
  exact forall_ws_dropWhile_iff s

lemma dropWhile_head_not (p : Char → Bool) :
    ∀ (l as : List Char) (a : Char), List.dropWhile p l = a :: as → p a = false := by
  intro l
  induction l with
  | nil =>
    intro as a h
    simp [List.dropWhile] at h
  | cons x xs ih =>
    intro as a h
    rw [List.dropWhile_cons] at h
    by_cases hx : p x
    · rw [if_pos hx] at h
      exact ih as a h
    · rw [if_neg hx] at h
      cases h
      exact Bool.eq_false_iff.mpr hx

lemma dropWhile_rdropWhile_dropWhile (p : Char → Bool) (s : List Char) :
    List.dropWhile p (List.rdropWhile p (List.dropWhile p s)) =
      List.rdropWhile p (List.dropWhile p s) := by
  cases h : List.rdropWhile p (List.dropWhile p s) with
  | nil => simp
  | cons a as =>
    obtain ⟨u, hu⟩ := List.rdropWhile_prefix p (List.dropWhile p s)
    rw [h] at hu
    have ha : p a = false :=
      dropWhile_head_not p s (as ++ u) a (by rw [← hu]; simp)
    rw [List.dropWhile_cons, ha]
    simp

lemma pyStrip_idem (s : Str) : pyStrip (pyStrip s) = pyStrip s := by
  unfold pyStrip
  rw [dropWhile_rdropWhile_dropWhile, List.rdropWhile_idempotent]

/-! ### Claims -/

/-- C3: `Phone(s)` succeeds exactly when the digit characters of `s`
number 10, and then stores that digits-only string (non-digits removed,
order preserved); otherwise it raises `ValidationError`. -/
theorem phone_init_spec (s : Str) :
    ((normalizeDigits s).length = 10 → Phone.init s = .ok ⟨normalizeDigits s⟩) ∧
    ((normalizeDigits s).length ≠ 10 → Phone.init s = .error .validationError) := by
  constructor
  · intro h
    unfold Phone.init
    rw [if_pos h]
  · intro h
    unfold Phone.init
    rw [if_neg h]

theorem phone_init_spec_witness :
    Phone.init ("123-456-7890".toList) = .ok ⟨"1234567890".toList⟩ ∧
    Phone.init ("12345".toList) = .error .validationError :=
  ⟨(phone_init_spec ("123-456-7890".toList)).1 (by decide),
   (phone_init_spec ("12345".toList)).2 (by decide)⟩

/-- C4: `Name(s)` succeeds and stores the trimmed string exactly when
`s` has a non-whitespace character; on empty or all-whitespace input it
raises `ValidationError`. -/
theorem name_init_spec (s : Str) :
    ((∃ c ∈ s, Char.isWhitespace c = false) → Name.init s = .ok ⟨pyStrip s⟩) ∧
    ((∀ c ∈ s, Char.isWhitespace c) → Name.init s = .error .validationError) := by
  constructor
  · rintro ⟨c, hc, hw⟩
    have hne : pyStrip s ≠ [] := by
      intro h
      have hcw := (pyStrip_eq_nil_iff s).mp h c hc
      rw [hw] at hcw
      exact Bool.false_ne_true hcw
    unfold Name.init
    rw [if_neg hne]
  · intro h
    unfold Name.init
    rw [if_pos ((pyStrip_eq_nil_iff s).mpr h)]

theorem name_init_spec_witness :
    Name.init ("  John ".toList) = .ok ⟨"John".toList⟩ ∧
    Name.init ("   ".toList) = .error .validationError := by
  constructor
  · have hps : pyStrip ("  John ".toList) = "John".toList := by decide
    have h := (name_init_spec ("  John ".toList)).1 ⟨'J', by decide, by decide⟩
    rw [hps] at h
    exact h
  · exact (name_init_spec ("   ".toList)).2 (by decide)

/-- C9: the rendering of a record is a deterministic function of its
state — the name followed by the semicolon-joined phone values in
insertion order, or the `(no phones)` placeholder — and the "John"
scenario renders exactly as the spec shows. -/
theorem record_render_spec :
    (∀ r : Record, r.render =
      "Contact name: ".toList ++ r.name.value ++ ", phones: ".toList ++
        (if r.phones = [] then "(no phones)".toList
         else joinSep ("; ".toList) (r.phones.map Phone.value))) ∧
    (Record.init ("John".toList) = .ok ⟨⟨"John".toList⟩, []⟩ ∧
     Record.add_phone ⟨⟨"John".toList⟩, []⟩ ("123-456-7890".toList) =
       .ok ⟨⟨"John".toList⟩, [⟨"1234567890".toList⟩]⟩ ∧
     Record.add_phone ⟨⟨"John".toList⟩, [⟨"1234567890".toList⟩]⟩
         ("(555) 555-5555".toList) =
       .ok ⟨⟨"John".toList⟩, [⟨"1234567890".toList⟩, ⟨"5555555555".toList⟩]⟩ ∧
     Record.render ⟨⟨"John".toList⟩, [⟨"1234567890".toList⟩, ⟨"5555555555".toList⟩]⟩ =
       "Contact name: John, phones: 1234567890; 5555555555".toList) :=
  ⟨fun _ => rfl, rfl, rfl, rfl, rfl⟩

/-- C1: when the record does contain a phone matching the normalization
of `old` but `new` does not normalize to 10 digits, `edit_phone` raises
`ValidationError`.  The new Phone is constructed before any mutation, so
in this state-passing embedding the error result carries no modified
record: the phone list is exactly the one before the call. -/
theorem edit_phone_invalid_new_raises (r : Record) (old new : Str)
    (h1 : ∃ p ∈ r.phones, p.value = normalizeDigits old)
    (h2 : (normalizeDigits new).length ≠ 10) :
    r.edit_phone old new = .error .validationError := by
  obtain ⟨p, hp, hv⟩ := h1
  cases hf : r.find_phone old with
  | none =>
    exfalso
    have hnone := List.find?_eq_none.mp hf p hp
    simp [hv] at hnone
  | some q =>
    have hp2 : Phone.init new = .error .validationError := by
      unfold Phone.init
      rw [if_neg h2]
    simp only [Record.edit_phone, hf, hp2]

theorem edit_phone_invalid_new_raises_witness :
    Record.edit_phone ⟨⟨"John".toList⟩, [⟨"1234567890".toList⟩]⟩
      ("123-456-7890".toList) ("12345".toList) = .error .validationError :=
  edit_phone_invalid_new_raises ⟨⟨"John".toList⟩, [⟨"1234567890".toList⟩]⟩
    ("123-456-7890".toList) ("12345".toList)
    ⟨⟨"1234567890".toList⟩, by simp, by decide⟩ (by decide)

/-- C5: on an absent target, the mutators `remove_phone`, `edit_phone`
and `delete` raise `NotFoundError`, while the lookups `find_phone` and
`find` return `none` without raising. -/
theorem absent_target_behavior (r : Record) (s new : Str) (b : AddressBook)
    (k : Str)
    (hr : ∀ p ∈ r.phones, p.value ≠ normalizeDigits s)
    (hb : ∀ kv ∈ b.data, kv.1 ≠ k) :
    r.find_phone s = none ∧
    r.remove_phone s = .error .notFoundError ∧
    r.edit_phone s new = .error .notFoundError ∧
    b.find k = none ∧
    b.delete k = .error .notFoundError := by
  have hf : r.find_phone s = none := by
    unfold Record.find_phone
    rw [List.find?_eq_none]
    intro p hp
    simp [hr p hp]
  have hbf : b.data.find? (fun kv => decide (kv.1 = k)) = none := by
    rw [List.find?_eq_none]
    intro kv hkv
    simp [hb kv hkv]
  have hany : b.data.any (fun kv => decide (kv.1 = k)) = false := by
    rw [List.any_eq_false]
    intro kv hkv
    simp [hb kv hkv]
  refine ⟨hf, ?_, ?_, ?_, ?_⟩
  · simp only [Record.remove_phone, hf]
  · simp only [Record.edit_phone, hf]
  · simp only [AddressBook.find, hbf]
    rfl
  · simp [AddressBook.delete, hany]

theorem absent_target_behavior_witness :
    Record.find_phone ⟨⟨"John".toList⟩, [⟨"1234567890".toList⟩]⟩ ("987-654-3210".toList) = none ∧
    Record.remove_phone ⟨⟨"John".toList⟩, [⟨"1234567890".toList⟩]⟩ ("987-654-3210".toList) =
      .error .notFoundError ∧
    Record.edit_phone ⟨⟨"John".toList⟩, [⟨"1234567890".toList⟩]⟩ ("987-654-3210".toList)
      ("1112223333".toList) = .error .notFoundError ∧
    AddressBook.find ⟨[("John".toList, ⟨⟨"John".toList⟩, []⟩)]⟩ ("Jane".toList) = none ∧
    AddressBook.delete ⟨[("John".toList, ⟨⟨"John".toList⟩, []⟩)]⟩ ("Jane".toList) =
      .error .notFoundError :=
  absent_target_behavior ⟨⟨"John".toList⟩, [⟨"1234567890".toList⟩]⟩
    ("987-654-3210".toList) ("1112223333".toList)
    ⟨[("John".toList, ⟨⟨"John".toList⟩, []⟩)]⟩ ("Jane".toList)
    (by decide) (by decide)

lemma find?_first_value (n : Str) :
    ∀ (pre post : List Phone) (p : Phone), p.value = n →
      (∀ q ∈ pre, q.value ≠ n) →
      (pre ++ p :: post).find? (fun q => decide (q.value = n)) = some p := by
  intro pre
  induction pre with
  | nil =>
    intro post p hp _
    simp [List.find?_cons, hp]
  | cons q qs ih =>
    intro post p hp hpre
    have hq : decide (q.value = n) = false := by
      simp [hpre q (by simp)]
    simp only [List.cons_append, List.find?_cons, hq]
    exact ih post p hp fun x hx => hpre x (by simp [hx])

/-- C6: adding two raw strings that normalize to the same valid 10-digit
value leaves exactly one phone with that value, and the second call
raises no error.  The count hypothesis says the record respects the
data model's no-duplicate invariant for that value before the calls. -/
theorem add_phone_idempotent (r : Record) (s1 s2 : Str)
    (hn : normalizeDigits s1 = normalizeDigits s2)
    (hlen : (normalizeDigits s1).length = 10)
    (hcount : (r.phones.map Phone.value).count (normalizeDigits s1) ≤ 1) :
    ∃ r1 r2 : Record,
      r.add_phone s1 = .ok r1 ∧ r1.add_phone s2 = .ok r2 ∧
      (r2.phones.map Phone.value).count (normalizeDigits s1) = 1 := by
  have h1 : Phone.init s1 = .ok ⟨normalizeDigits s1⟩ := by
    unfold Phone.init
    rw [if_pos hlen]
  have h2 : Phone.init s2 = .ok ⟨normalizeDigits s1⟩ := by
    unfold Phone.init
    rw [← hn, if_pos hlen]
  by_cases hany : (r.phones.any fun p => decide (p.value = normalizeDigits s1)) = true
  · refine ⟨r, r, ?_, ?_, ?_⟩
    · simp only [Record.add_phone, h1, hany, if_true]
    · simp only [Record.add_phone, h2, hany, if_true]
    · have hmem : normalizeDigits s1 ∈ r.phones.map Phone.value := by
        rw [List.any_eq_true] at hany
        obtain ⟨p, hp, hv⟩ := hany
        simp only [decide_eq_true_eq] at hv
        exact hv ▸ List.mem_map_of_mem Phone.value hp
      have hpos := List.count_pos_iff.mpr hmem
      omega
  · rw [Bool.not_eq_true] at hany
    refine ⟨⟨r.name, r.phones ++ [⟨normalizeDigits s1⟩]⟩,
            ⟨r.name, r.phones ++ [⟨normalizeDigits s1⟩]⟩, ?_, ?_, ?_⟩
    · simp only [Record.add_phone, h1, hany, Bool.false_eq_true, if_false]
    · have hany2 : ((r.phones ++ [⟨normalizeDigits s1⟩] : List Phone).any
          fun p => decide (p.value = normalizeDigits s1)) = true := by
        rw [List.any_eq_true]
        exact ⟨⟨normalizeDigits s1⟩, by simp, by simp⟩
      simp only [Record.add_phone, h2, hany2, if_true]
    · have hzero : (r.phones.map Phone.value).count (normalizeDigits s1) = 0 := by
        rw [List.count_eq_zero]
        intro hmem
        rw [List.mem_map] at hmem
        obtain ⟨p, hp, hv⟩ := hmem
        rw [List.any_eq_false] at hany
        exact hany p hp (by simp [hv])
      simp [List.count_append, hzero]

theorem add_phone_idempotent_witness :
    ∃ r1 r2 : Record,
      Record.add_phone ⟨⟨"John".toList⟩, []⟩ ("123-456-7890".toList) = .ok r1 ∧
      Record.add_phone r1 ("1234567890".toList) = .ok r2 ∧
      (r2.phones.map Phone.value).count
        (normalizeDigits ("123-456-7890".toList)) = 1 :=
  add_phone_idempotent ⟨⟨"John".toList⟩, []⟩ ("123-456-7890".toList)
    ("1234567890".toList) (by decide) (by decide) (by decide)

/-- C7: when the phone list splits as `pre ++ p :: post` with `p` the
first phone matching the normalization of `s`, `remove_phone` removes
exactly `p`: the result keeps the name and the other phones in their
relative order. -/
theorem remove_phone_first_match (r : Record) (s : Str) (pre post : List Phone)
    (p : Phone)
    (hsplit : r.phones = pre ++ p :: post)
    (hp : p.value = normalizeDigits s)
    (hpre : ∀ q ∈ pre, q.value ≠ normalizeDigits s) :
    r.remove_phone s = .ok ⟨r.name, pre ++ post⟩ := by
  have hf : r.find_phone s = some p := by
    unfold Record.find_phone
    rw [hsplit]
    exact find?_first_value (normalizeDigits s) pre post p hp hpre
  have hnp : p ∉ pre := fun hmem => hpre p hmem hp
  have herase : r.phones.erase p = pre ++ post := by
    rw [hsplit, List.erase_append_right _ hnp, List.erase_cons_head]
  simp only [Record.remove_phone, hf, herase]

theorem remove_phone_first_match_witness :
    Record.remove_phone
      ⟨⟨"John".toList⟩, [⟨"1234567890".toList⟩, ⟨"5555555555".toList⟩]⟩
      ("555-555-5555".toList) =
      .ok ⟨⟨"John".toList⟩, [⟨"1234567890".toList⟩] ++ []⟩ :=
  remove_phone_first_match
    ⟨⟨"John".toList⟩, [⟨"1234567890".toList⟩, ⟨"5555555555".toList⟩]⟩
    ("555-555-5555".toList) [⟨"1234567890".toList⟩] [] ⟨"5555555555".toList⟩
    (by decide) (by decide) (by decide)

lemma setFirstValue_cons_pos (p : Phone) (ps : List Phone) (tgt nv : Str)
    (h : p.value = tgt) : setFirstValue (p :: ps) tgt nv = ⟨nv⟩ :: ps := by
  simp [setFirstValue, h]

lemma setFirstValue_cons_neg (p : Phone) (ps : List Phone) (tgt nv : Str)
    (h : p.value ≠ tgt) :
    setFirstValue (p :: ps) tgt nv = p :: setFirstValue ps tgt nv := by
  simp [setFirstValue, h]

lemma setFirstValue_value_mem (tgt nv : Str) :
    ∀ (l : List Phone) (v : Str), v ∈ (setFirstValue l tgt nv).map Phone.value →
      v ∈ l.map Phone.value ∨ v = nv := by
  intro l
  induction l with
  | nil =>
    intro v hv
    simp [setFirstValue] at hv
  | cons p ps ih =>
    intro v hv
    by_cases hp : p.value = tgt
    · rw [setFirstValue_cons_pos p ps tgt nv hp] at hv
      simp only [List.map_cons, List.mem_cons] at hv
      rcases hv with h | h
      · right
        exact h
      · left
        simp only [List.map_cons, List.mem_cons]
        right
        exact h
    · rw [setFirstValue_cons_neg p ps tgt nv hp] at hv
      simp only [List.map_cons, List.mem_cons] at hv
      rcases hv with h | h
      · left
        simp [h]
      · rcases ih v h with h2 | h2
        · left
          simp only [List.map_cons, List.mem_cons]
          right
          exact h2
        · right
          exact h2

lemma setFirstValue_nodup (tgt nv : Str) :
    ∀ l : List Phone, (l.map Phone.value).Nodup →
      (nv ∉ l.map Phone.value ∨ nv = tgt) →
      ((setFirstValue l tgt nv).map Phone.value).Nodup := by
  intro l
  induction l with
  | nil =>
    intro _ _
    simp [setFirstValue]
  | cons p ps ih =>
    intro h hnv
    simp only [List.map_cons, List.nodup_cons] at h
    obtain ⟨hpm, hps⟩ := h
    by_cases hp : p.value = tgt
    · rw [setFirstValue_cons_pos p ps tgt nv hp]
      simp only [List.map_cons, List.nodup_cons]
      refine ⟨?_, hps⟩
      rcases hnv with h1 | h1
      · intro hmem
        exact h1 (by simp only [List.map_cons, List.mem_cons]; right; exact hmem)
      · have hnvp : nv = p.value := h1.trans hp.symm
        rw [hnvp]
        exact hpm
    · rw [setFirstValue_cons_neg p ps tgt nv hp]
      simp only [List.map_cons, List.nodup_cons]
      constructor
      · intro hmem
        rcases setFirstValue_value_mem tgt nv ps p.value hmem with h2 | h2
        · exact hpm h2
        · rcases hnv with h3 | h3
          · exact h3 (by simp only [List.map_cons, List.mem_cons]; left; exact h2.symm)
          · exact hp (h2.trans h3)
      · apply ih hps
        rcases hnv with h3 | h3
        · left
          intro hm
          exact h3 (by simp only [List.map_cons, List.mem_cons]; right; exact hm)
        · right
          exact h3

/-- C2 counterexample: on a duplicate-free record holding 1234567890 and
5555555555, a successful `edit_phone` of the first to the second leaves
two phones with the same normalized value, refuting the claim that every
Record operation preserves the no-duplicates invariant. -/
theorem edit_phone_duplicate_cex :
    (([⟨"1234567890".toList⟩, ⟨"5555555555".toList⟩] : List Phone).map
      Phone.value).Nodup ∧
    Record.edit_phone
      ⟨⟨"John".toList⟩, [⟨"1234567890".toList⟩, ⟨"5555555555".toList⟩]⟩
      ("1234567890".toList) ("5555555555".toList) =
      .ok ⟨⟨"John".toList⟩, [⟨"5555555555".toList⟩, ⟨"5555555555".toList⟩]⟩ ∧
    ¬ (([⟨"5555555555".toList⟩, ⟨"5555555555".toList⟩] : List Phone).map
      Phone.value).Nodup :=
  ⟨by decide, rfl, by decide⟩

/-- C2 amended: the no-duplicates invariant holds after construction and
is preserved by `add_phone` and `remove_phone` for all arguments, and by
`edit_phone` whenever the normalization of `new` is not already stored
(or coincides with the normalization of `old`); a successful
`edit_phone` to a value stored elsewhere in the list breaks it. -/
theorem phones_nodup_preserved :
    (∀ s r, Record.init s = .ok r → (r.phones.map Phone.value).Nodup) ∧
    (∀ (r : Record) s r2, (r.phones.map Phone.value).Nodup →
      r.add_phone s = .ok r2 → (r2.phones.map Phone.value).Nodup) ∧
    (∀ (r : Record) s r2, (r.phones.map Phone.value).Nodup →
      r.remove_phone s = .ok r2 → (r2.phones.map Phone.value).Nodup) ∧
    (∀ (r : Record) old new r2, (r.phones.map Phone.value).Nodup →
      (normalizeDigits new ∉ r.phones.map Phone.value ∨
        normalizeDigits new = normalizeDigits old) →
      r.edit_phone old new = .ok r2 → (r2.phones.map Phone.value).Nodup) := by
  refine ⟨?_, ?_, ?_, ?_⟩
  · intro s r h
    unfold Record.init at h
    cases hn : Name.init s with
    | error e =>
      rw [hn] at h
      simp [Except.map] at h
    | ok n =>
      rw [hn] at h
      simp only [Except.map] at h
      injection h with h2
      rw [← h2]
      simp
  · intro r s r2 h hadd
    unfold Record.add_phone at hadd
    cases hp : Phone.init s with
    | error e =>
      rw [hp] at hadd
      simp at hadd
    | ok phone =>
      rw [hp] at hadd
      have hadd2 : (if (r.phones.any fun p => decide (p.value = phone.value)) = true
          then (Except.ok r : Except Err Record)
          else Except.ok { r with phones := r.phones ++ [phone] }) = Except.ok r2 :=
        hadd
      by_cases hany : (r.phones.any fun p => decide (p.value = phone.value)) = true
      · rw [if_pos hany] at hadd2
        injection hadd2 with h2
        rw [← h2]
        exact h
      · rw [if_neg hany] at hadd2
        injection hadd2 with h2
        rw [← h2]
        simp only [List.map_append, List.map_cons, List.map_nil]
        rw [List.nodup_append]
        refine ⟨h, by simp, ?_⟩
        intro a ha hmem
        rw [Bool.not_eq_true, List.any_eq_false] at hany
        rw [List.mem_singleton] at hmem
        rw [List.mem_map] at ha
        obtain ⟨p, hpmem, hpv⟩ := ha
        apply hany p hpmem
        simp [hpv, hmem]
  · intro r s r2 h hrem
    unfold Record.remove_phone at hrem
    cases hf : r.find_phone s with
    | none =>
      rw [hf] at hrem
      simp at hrem
    | some target =>
      rw [hf] at hrem
      injection hrem with h2
      rw [← h2]
      exact List.Nodup.sublist ((r.phones.erase_sublist target).map Phone.value) h
  · intro r old new r2 h hnv hedit
    unfold Record.edit_phone at hedit
    cases hf : r.find_phone old with
    | none =>
      rw [hf] at hedit
      simp at hedit
    | some q =>
      rw [hf] at hedit
      cases hp : Phone.init new with
      | error e =>
        rw [hp] at hedit
        simp at hedit
      | ok np =>
        rw [hp] at hedit
        injection hedit with h2
        rw [← h2]
        have hnpv : np.value = normalizeDigits new := by
          unfold Phone.init at hp
          by_cases hl : (normalizeDigits new).length = 10
          · rw [if_pos hl] at hp
            injection hp with h3
            rw [← h3]
          · rw [if_neg hl] at hp
            simp at hp
        apply setFirstValue_nodup _ _ r.phones h
        rw [hnpv]
        exact hnv

theorem phones_nodup_preserved_witness :
    ((⟨⟨"John".toList⟩, [⟨"1234567890".toList⟩]⟩ : Record).phones.map
      Phone.value).Nodup :=
  phones_nodup_preserved.2.1 ⟨⟨"John".toList⟩, []⟩ ("123-456-7890".toList)
    ⟨⟨"John".toList⟩, [⟨"1234567890".toList⟩]⟩ (by decide) rfl

lemma dictInsert_keys (d : List (Str × Record)) (k : Str) (v : Record) :
    (dictInsert d k v).map Prod.fst =
      if (d.any fun kv => decide (kv.1 = k)) = true then d.map Prod.fst
      else d.map Prod.fst ++ [k] := by
  unfold dictInsert
  by_cases h : (d.any fun kv => decide (kv.1 = k)) = true
  · rw [if_pos h, if_pos h, List.map_map]
    apply List.map_congr_left
    intro kv _
    show (if kv.1 = k then (k, v) else kv).1 = kv.1
    by_cases hk : kv.1 = k
    · rw [if_pos hk]
      exact hk.symm
    · rw [if_neg hk]
  · rw [if_neg h, if_neg h]
    simp

lemma applyOp_keys_nodup (b : AddressBook) (op : BookOp)
    (h : (b.data.map Prod.fst).Nodup) :
    ((applyOp b op).data.map Prod.fst).Nodup := by
  cases op with
  | add r =>
    show ((dictInsert b.data r.name.value r).map Prod.fst).Nodup
    rw [dictInsert_keys]
    by_cases hany : (b.data.any fun kv => decide (kv.1 = r.name.value)) = true
    · rw [if_pos hany]
      exact h
    · rw [if_neg hany]
      rw [List.nodup_append]
      refine ⟨h, by simp, ?_⟩
      intro a ha hmem
      rw [List.mem_singleton] at hmem
      rw [Bool.not_eq_true, List.any_eq_false] at hany
      rw [List.mem_map] at ha
      obtain ⟨kv, hkv, hfst⟩ := ha
      have hne : kv.1 ≠ r.name.value := by simpa using hany kv hkv
      exact hne (hfst.trans hmem)
  | del k =>
    show (((match b.delete k with
      | .ok b2 => b2
      | .error _ => b).data).map Prod.fst).Nodup
    unfold AddressBook.delete
    by_cases hany : (b.data.any fun kv => decide (kv.1 = k)) = true
    · rw [if_pos hany]
      exact List.Nodup.sublist ((List.filter_sublist b.data).map Prod.fst) h
    · rw [if_neg hany]
      exact h

lemma applyOps_keys_nodup (ops : List BookOp) :
    ∀ b : AddressBook, (b.data.map Prod.fst).Nodup →
      ((applyOps b ops).data.map Prod.fst).Nodup := by
  induction ops with
  | nil =>
    intro b h
    exact h
  | cons op rest ih =>
    intro b h
    exact ih (applyOp b op) (applyOp_keys_nodup b op h)

/-- C8: for a book built from the empty book by any sequence of
`add_record`/`delete` calls, iteration (the `data` list) holds pairwise
distinct keys, so each (name, Record) pair appears exactly once; the
order is key insertion order: replacing an existing key keeps the key
sequence unchanged, a new key is appended at the end.  Traversal of the
same `data` list is trivially restartable and repeatable. -/
theorem book_iteration_order (ops : List BookOp) (r : Record) :
    ((applyOps ⟨[]⟩ ops).data.map Prod.fst).Nodup ∧
    ((applyOps ⟨[]⟩ ops).data).Nodup ∧
    (((applyOps ⟨[]⟩ ops).data.any fun kv => decide (kv.1 = r.name.value)) = true →
      ((applyOps ⟨[]⟩ ops).add_record r).data.map Prod.fst =
        (applyOps ⟨[]⟩ ops).data.map Prod.fst) ∧
    (((applyOps ⟨[]⟩ ops).data.any fun kv => decide (kv.1 = r.name.value)) = false →
      ((applyOps ⟨[]⟩ ops).add_record r).data.map Prod.fst =
        (applyOps ⟨[]⟩ ops).data.map Prod.fst ++ [r.name.value]) := by
  have hkeys := applyOps_keys_nodup ops ⟨[]⟩ (by simp)
  refine ⟨hkeys, List.Nodup.of_map Prod.fst hkeys, ?_, ?_⟩
  · intro hany
    show (dictInsert _ _ _).map Prod.fst = _
    rw [dictInsert_keys, if_pos hany]
  · intro hany
    show (dictInsert _ _ _).map Prod.fst = _
    rw [dictInsert_keys, if_neg (by simp [hany])]

theorem book_iteration_order_witness :
    (((applyOps ⟨[]⟩ [BookOp.add ⟨⟨"John".toList⟩, []⟩]).add_record
        ⟨⟨"John".toList⟩, [⟨"1234567890".toList⟩]⟩).data.map Prod.fst =
      (applyOps ⟨[]⟩ [BookOp.add ⟨⟨"John".toList⟩, []⟩]).data.map Prod.fst) ∧
    (((applyOps ⟨[]⟩ [BookOp.add ⟨⟨"John".toList⟩, []⟩]).add_record
        ⟨⟨"Jane".toList⟩, []⟩).data.map Prod.fst =
      (applyOps ⟨[]⟩ [BookOp.add ⟨⟨"John".toList⟩, []⟩]).data.map Prod.fst ++
        ["Jane".toList]) :=
  ⟨(book_iteration_order [BookOp.add ⟨⟨"John".toList⟩, []⟩]
      ⟨⟨"John".toList⟩, [⟨"1234567890".toList⟩]⟩).2.2.1 (by decide),
   (book_iteration_order [BookOp.add ⟨⟨"John".toList⟩, []⟩]
      ⟨⟨"Jane".toList⟩, []⟩).2.2.2 (by decide)⟩

lemma applyOp_keys_eq_name (b : AddressBook) (op : BookOp)
    (h : ∀ kv ∈ b.data, kv.1 = kv.2.name.value) :
    ∀ kv ∈ (applyOp b op).data, kv.1 = kv.2.name.value := by
  cases op with
  | add r =>
    intro kv hkv
    have hkv2 : kv ∈ dictInsert b.data r.name.value r := hkv
    unfold dictInsert at hkv2
    by_cases hany : (b.data.any fun x => decide (x.1 = r.name.value)) = true
    · rw [if_pos hany] at hkv2
      rw [List.mem_map] at hkv2
      obtain ⟨kv0, hkv0, heq⟩ := hkv2
      by_cases hk : kv0.1 = r.name.value
      · rw [if_pos hk] at heq
        rw [← heq]
      · rw [if_neg hk] at heq
        rw [← heq]
        exact h kv0 hkv0
    · rw [if_neg hany] at hkv2
      rcases List.mem_append.mp hkv2 with h1 | h1
      · exact h kv h1
      · rw [List.mem_singleton] at h1
        rw [h1]
  | del k =>
    intro kv hkv
    have hkv2 : kv ∈ (match b.delete k with
      | .ok b2 => b2
      | .error _ => b).data := hkv
    unfold AddressBook.delete at hkv2
    by_cases hany : (b.data.any fun x => decide (x.1 = k)) = true
    · rw [if_pos hany] at hkv2
      exact h kv (List.mem_of_mem_filter hkv2)
    · rw [if_neg hany] at hkv2
      exact h kv hkv2

lemma applyOps_keys_eq_name (ops : List BookOp) :
    ∀ b : AddressBook, (∀ kv ∈ b.data, kv.1 = kv.2.name.value) →
      ∀ kv ∈ (applyOps b ops).data, kv.1 = kv.2.name.value := by
  induction ops with
  | nil =>
    intro b hb
    exact hb
  | cons op rest ih =>
    intro b hb
    exact ih (applyOp b op) (applyOp_keys_eq_name b op hb)

lemma applyOp_keys_fixed (b : AddressBook) (op : BookOp)
    (hb : ∀ k ∈ b.data.map Prod.fst, pyStrip k = k)
    (hop : ∀ r, op = BookOp.add r → pyStrip r.name.value = r.name.value) :
    ∀ k ∈ (applyOp b op).data.map Prod.fst, pyStrip k = k := by
  cases op with
  | add r =>
    intro k hk
    have hdk : (applyOp b (BookOp.add r)).data.map Prod.fst =
        if (b.data.any fun kv => decide (kv.1 = r.name.value)) = true
        then b.data.map Prod.fst else b.data.map Prod.fst ++ [r.name.value] :=
      dictInsert_keys b.data r.name.value r
    rw [hdk] at hk
    by_cases hany : (b.data.any fun kv => decide (kv.1 = r.name.value)) = true
    · rw [if_pos hany] at hk
      exact hb k hk
    · rw [if_neg hany] at hk
      rcases List.mem_append.mp hk with h1 | h1
      · exact hb k h1
      · rw [List.mem_singleton] at h1
        rw [h1]
        exact hop r rfl
  | del k2 =>
    intro k hk
    have hkd : k ∈ (match b.delete k2 with
      | .ok b2 => b2
      | .error _ => b).data.map Prod.fst := hk
    unfold AddressBook.delete at hkd
    by_cases hany : (b.data.any fun kv => decide (kv.1 = k2)) = true
    · rw [if_pos hany] at hkd
      rw [List.mem_map] at hkd
      obtain ⟨kv, hkv, hf⟩ := hkd
      exact hf ▸ hb kv.1 (List.mem_map_of_mem Prod.fst (List.mem_of_mem_filter hkv))
    · rw [if_neg hany] at hkd
      exact hb k hkd

lemma applyOps_keys_fixed (ops : List BookOp) :
    ∀ b : AddressBook, (∀ k ∈ b.data.map Prod.fst, pyStrip k = k) →
      (∀ r, BookOp.add r ∈ ops → pyStrip r.name.value = r.name.value) →
      ∀ k ∈ (applyOps b ops).data.map Prod.fst, pyStrip k = k := by
  induction ops with
  | nil =>
    intro b hb _
    exact hb
  | cons op rest ih =>
    intro b hb hops
    apply ih (applyOp b op)
    · apply applyOp_keys_fixed b op hb
      intro r2 heq
      apply hops r2
      rw [← heq]
      exact List.mem_cons_self op rest
    · exact fun r2 hr2 => hops r2 (List.mem_cons_of_mem op hr2)

lemma find?_map_replace (k : Str) (v : Record) :
    ∀ d : List (Str × Record), (d.any fun kv => decide (kv.1 = k)) = true →
      ((d.map fun kv => if kv.1 = k then (k, v) else kv).find?
        fun kv => decide (kv.1 = k)) = some (k, v) := by
  intro d
  induction d with
  | nil =>
    intro h
    simp at h
  | cons kv0 rest ih =>
    intro h
    by_cases hk : kv0.1 = k
    · simp only [List.map_cons, if_pos hk, List.find?_cons]
      simp
    · have hk2 : decide (kv0.1 = k) = false := by simp [hk]
      simp only [List.map_cons, if_neg hk, List.find?_cons, hk2]
      apply ih
      rw [List.any_cons, hk2, Bool.false_or] at h
      exact h

lemma find?_append_absent (k : Str) (v : Record) :
    ∀ d : List (Str × Record), (∀ kv ∈ d, kv.1 ≠ k) →
      ((d ++ [(k, v)]).find? fun kv => decide (kv.1 = k)) = some (k, v) := by
  intro d
  induction d with
  | nil =>
    intro _
    simp [List.find?_cons]
  | cons kv0 rest ih =>
    intro h
    have hk : decide (kv0.1 = k) = false := by simp [h kv0 (by simp)]
    simp only [List.cons_append, List.find?_cons, hk]
    exact ih fun kv hkv => h kv (by simp [hkv])

lemma find_add_record_self (b : AddressBook) (r : Record) :
    (b.add_record r).find r.name.value = some r := by
  have hdata : (b.add_record r).data = dictInsert b.data r.name.value r := rfl
  unfold AddressBook.find
  rw [hdata]
  unfold dictInsert
  by_cases hany : (b.data.any fun kv => decide (kv.1 = r.name.value)) = true
  · rw [if_pos hany, find?_map_replace r.name.value r b.data hany]
    rfl
  · have habs : ∀ kv ∈ b.data, kv.1 ≠ r.name.value := by
      rw [Bool.not_eq_true, List.any_eq_false] at hany
      intro kv hkv
      simpa using hany kv hkv
    rw [if_neg hany, find?_append_absent r.name.value r b.data habs]
    rfl

/-- C10: in a book built only through `add_record` and `delete`, every
key equals the `Name` value of its record; since `Name` trims at
construction, a record built from a name string with surrounding
whitespace is keyed under the trimmed name: `find` with the original
untrimmed string returns `none`, `find` with the trimmed string returns
the record. -/
theorem book_keys_eq_name (ops : List BookOp) (s : Str) (r : Record)
    (hnames : ∀ r2, BookOp.add r2 ∈ ops → pyStrip r2.name.value = r2.name.value)
    (hs : pyStrip s ≠ s)
    (hr : Record.init s = .ok r) :
    (∀ kv ∈ (applyOps ⟨[]⟩ ops).data, kv.1 = kv.2.name.value) ∧
    ((applyOps ⟨[]⟩ ops).add_record r).find s = none ∧
    ((applyOps ⟨[]⟩ ops).add_record r).find (pyStrip s) = some r := by
  have hrv : r.name.value = pyStrip s := by
    unfold Record.init Name.init at hr
    by_cases hps : pyStrip s = []
    · rw [if_pos hps] at hr
      simp [Except.map] at hr
    · rw [if_neg hps] at hr
      simp only [Except.map] at hr
      injection hr with h2
      rw [← h2]
  have hfixed : ∀ k ∈ ((applyOps ⟨[]⟩ ops).add_record r).data.map Prod.fst,
      pyStrip k = k := by
    apply applyOp_keys_fixed (applyOps ⟨[]⟩ ops) (BookOp.add r)
    · exact applyOps_keys_fixed ops ⟨[]⟩ (by simp) hnames
    · intro r2 heq
      injection heq with h3
      rw [← h3, hrv, pyStrip_idem]
  refine ⟨applyOps_keys_eq_name ops ⟨[]⟩ (by simp), ?_, ?_⟩
  · have hnone : ((((applyOps ⟨[]⟩ ops).add_record r).data).find?
        fun kv => decide (kv.1 = s)) = none := by
      rw [List.find?_eq_none]
      intro kv hkv
      intro hdec
      rw [decide_eq_true_eq] at hdec
      apply hs
      rw [← hdec]
      exact hfixed kv.1 (List.mem_map_of_mem Prod.fst hkv)
    unfold AddressBook.find
    rw [hnone]
    rfl
  · rw [← hrv]
    exact find_add_record_self (applyOps ⟨[]⟩ ops) r

theorem book_keys_eq_name_witness :
    (∀ kv ∈ (applyOps ⟨[]⟩ ([] : List BookOp)).data, kv.1 = kv.2.name.value) ∧
    ((applyOps ⟨[]⟩ ([] : List BookOp)).add_record ⟨⟨"John".toList⟩, []⟩).find
      (" John ".toList) = none ∧
    ((applyOps ⟨[]⟩ ([] : List BookOp)).add_record ⟨⟨"John".toList⟩, []⟩).find
      (pyStrip (" John ".toList)) = some ⟨⟨"John".toList⟩, []⟩ :=
  book_keys_eq_name [] (" John ".toList) ⟨⟨"John".toList⟩, []⟩
    (fun r2 h => nomatch h) (by decide) rfl
